import Mathlib

/-!
Verification of the Beaver-triple protocol module
(`src/packages/syft/src/syft/core/smpc/protocol/beaver/beaver.py`).

The embedding models:
* Python's truncating `zip` and the nested zip/transpose reshape at the end
  of `_get_triples`;
* Python `str` of non-negative integers, tuples and lists, as used by the
  f-string store keys `f"beaver_mul_{a_shape}_{b_shape}"` and
  `f"beaver_mul_{tuple(a_shape)}_{tuple(b_shape)}"`;
* the CryptoStore (a dict from string keys to Python lists) together with
  `mul_store_add`, `mul_store_get`, `matmul_store_add`, `matmul_store_get`;
* `_get_triples` itself, with its randomness sources (`secrets.randbits`,
  the module-level `ttp_generator`) made explicit parameters, and the parts
  of the repository that are not under `src/` (the syft `Tensor` arithmetic,
  `MPCTensor._get_shares_from_local_secret`, the operation registry of the
  smpc store module) modelled from the specification.

Strings are modelled as their character lists (`PyStr`), stores as functions
from keys to optional queues, and machine integers as `Int` with explicit
reduction modulo the ring size.
-/

/-! ## Python `zip` and the `_get_triples` reshape -/

/-- Minimum length among a list of lists; `minLen [] = 0`.  This is the
number of tuples Python's `zip` yields on these iterables (`zip()` with no
arguments yields nothing, otherwise it truncates to the shortest input). -/
def minLen : List (List α) → Nat
  | [] => 0
  | [l] => l.length
  | l :: l' :: ls => min l.length (minLen (l' :: ls))

/-- Python's `list(map(list, zip(*ls)))`: the truncating transpose. -/
def pyZipStar [Inhabited α] (ls : List (List α)) : List (List α) :=
  (List.range (minLen ls)).map (fun i => ls.map (fun l => l.getD i default))

/-- The reshape at the end of `_get_triples`:
`list(map(list, zip(*map(lambda x: map(list, zip(*x)), triple_sequential))))`
where `triple_sequential` is a list of `(a_shares, b_shares, c_shares)`
records. -/
def beaverReshape [Inhabited α] (ts : List (List α × List α × List α)) :
    List (List (List α)) :=
  pyZipStar (ts.map (fun x => pyZipStar [x.1, x.2.1, x.2.2]))

/-! ## Python `str` of ints, tuples and lists -/

/-- A Python string, as its list of characters. -/
abbrev PyStr := List Char

/-- Little-endian decimal digits of `n`, with explicit fuel (the fuel is
sufficient as soon as `n ≤ fuel`). -/
def digitsLE : Nat → Nat → List Nat
  | 0, _ => []
  | fuel + 1, n => if n = 0 then [] else n % 10 :: digitsLE fuel (n / 10)

/-- The character of a decimal digit. -/
def digitChar : Nat → Char
  | 0 => '0'
  | 1 => '1'
  | 2 => '2'
  | 3 => '3'
  | 4 => '4'
  | 5 => '5'
  | 6 => '6'
  | 7 => '7'
  | 8 => '8'
  | 9 => '9'
  | _ => '*'

/-- Python `str` of a non-negative integer. -/
def pyNatStr (n : Nat) : PyStr :=
  if n = 0 then ['0'] else ((digitsLE n n).reverse.map digitChar)

/-- Python's `", ".join`, as used by the `repr` of tuples and lists. -/
def commaJoin : List PyStr → PyStr
  | [] => []
  | [x] => x
  | x :: x' :: xs => x ++ ',' :: ' ' :: commaJoin (x' :: xs)

/-- A shape argument as passed in Python: a tuple or a list of ints. -/
inductive PyShape where
  | tup (dims : List Nat)
  | lst (dims : List Nat)
  deriving DecidableEq

/-- The dimensions carried by a shape, forgetting the container type. -/
def PyShape.dims : PyShape → List Nat
  | .tup ds => ds
  | .lst ds => ds

/-- Python's `tuple(shape)`. -/
def pyTuple : PyShape → PyShape
  | .tup ds => .tup ds
  | .lst ds => .tup ds

/-- Python `str` of a shape: `()`, `(2,)`, `(2, 3)`, `[]`, `[2]`, `[2, 3]`. -/
def pyShapeStr : PyShape → PyStr
  | .tup [] => ['(', ')']
  | .tup [d] => '(' :: (pyNatStr d ++ [',', ')'])
  | .tup (d :: d' :: ds) =>
      '(' :: (commaJoin ((d :: d' :: ds).map pyNatStr) ++ [')'])
  | .lst ds => '[' :: (commaJoin (ds.map pyNatStr) ++ [']'])

/-! ## Store keys -/

/-- The characters of `"beaver_mul_"`. -/
def mulKeyHead : PyStr := ['b', 'e', 'a', 'v', 'e', 'r', '_', 'm', 'u', 'l', '_']

/-- The characters of `"beaver_matmul_"`. -/
def matmulKeyHead : PyStr :=
  ['b', 'e', 'a', 'v', 'e', 'r', '_', 'm', 'a', 't', 'm', 'u', 'l', '_']

/-- `f"beaver_mul_{a_shape}_{b_shape}"`: the key built by `mul_store_add`
(no `tuple(...)` applied to the shapes). -/
def mulAddKeyOf (a_shape b_shape : PyShape) : PyStr :=
  mulKeyHead ++ (pyShapeStr a_shape ++ '_' :: pyShapeStr b_shape)

/-- `f"beaver_mul_{tuple(a_shape)}_{tuple(b_shape)}"`: the key built by
`mul_store_get`. -/
def mulGetKeyOf (a_shape b_shape : PyShape) : PyStr :=
  mulKeyHead ++ (pyShapeStr (pyTuple a_shape) ++ '_' :: pyShapeStr (pyTuple b_shape))

/-- `f"beaver_matmul_{a_shape}_{b_shape}"`: the key built by
`matmul_store_add`. -/
def matmulAddKeyOf (a_shape b_shape : PyShape) : PyStr :=
  matmulKeyHead ++ (pyShapeStr a_shape ++ '_' :: pyShapeStr b_shape)

/-- `f"beaver_matmul_{tuple(a_shape)}_{tuple(b_shape)}"`: the key built by
`matmul_store_get`. -/
def matmulGetKeyOf (a_shape b_shape : PyShape) : PyStr :=
  matmulKeyHead ++ (pyShapeStr (pyTuple a_shape) ++ '_' :: pyShapeStr (pyTuple b_shape))

/-! ## The CryptoStore and its add/get functions -/

/-- The CryptoStore: a Python dict from string keys to lists of primitives. -/
abbrev Store (α : Type) := PyStr → Option (List α)

/-- A store with no keys. -/
def emptyStore : Store α := fun _ => none

/-- `store[k] = q`. -/
def storeSet (s : Store α) (k : PyStr) (q : List α) : Store α :=
  fun k' => if k' = k then some q else s k'

/-- The `EmptyPrimitiveStore` exception; the constructor records which of the
two `raise` sites in the source fired. -/
inductive EmptyPrimitiveStore where
  | keyAbsent
  | noPrimitive
  deriving DecidableEq

/-- `mul_store_add`: extend the queue at
`f"beaver_mul_{a_shape}_{b_shape}"`, or install `primitives` as a new
queue when the key is absent. -/
def mul_store_add (store : Store α) (primitives : List α)
    (a_shape b_shape : PyShape) : Store α :=
  let config_key := mulAddKeyOf a_shape b_shape
  match store config_key with
  | some q => storeSet store config_key (q ++ primitives)
  | none => storeSet store config_key primitives

/-- `mul_store_get`: look up `f"beaver_mul_{tuple(a_shape)}_{tuple(b_shape)}"`,
raise `EmptyPrimitiveStore` when the key is absent or its queue is empty,
otherwise return the head and, when `remove` is set, delete it. -/
def mul_store_get (store : Store α) (a_shape b_shape : PyShape)
    (remove : Bool) : Except EmptyPrimitiveStore α × Store α :=
  let config_key := mulGetKeyOf a_shape b_shape
  match store config_key with
  | none => (.error .keyAbsent, store)
  | some [] => (.error .noPrimitive, store)
  | some (p :: rest) =>
      (.ok p, if remove then storeSet store config_key rest else store)

/-- `matmul_store_add`, same shape as `mul_store_add` with the matmul key. -/
def matmul_store_add (store : Store α) (primitives : List α)
    (a_shape b_shape : PyShape) : Store α :=
  let config_key := matmulAddKeyOf a_shape b_shape
  match store config_key with
  | some q => storeSet store config_key (q ++ primitives)
  | none => storeSet store config_key primitives

/-- `matmul_store_get`, same shape as `mul_store_get` with the matmul key. -/
def matmul_store_get (store : Store α) (a_shape b_shape : PyShape)
    (remove : Bool) : Except EmptyPrimitiveStore α × Store α :=
  let config_key := matmulGetKeyOf a_shape b_shape
  match store config_key with
  | none => (.error .keyAbsent, store)
  | some [] => (.error .noPrimitive, store)
  | some (p :: rest) =>
      (.ok p, if remove then storeSet store config_key rest else store)

/-- The two Beaver operations whose store functions are registered. -/
inductive BeaverKind where
  | mul
  | matmul
  deriving DecidableEq

/-- Dispatch to the registered store-add function of an operation. -/
def store_add_for : BeaverKind → Store α → List α → PyShape → PyShape → Store α
  | .mul => mul_store_add
  | .matmul => matmul_store_add

/-- Dispatch to the registered store-get function of an operation. -/
def store_get_for :
    BeaverKind → Store α → PyShape → PyShape → Bool →
      Except EmptyPrimitiveStore α × Store α
  | .mul => mul_store_get
  | .matmul => matmul_store_get

/-- The add-path key of an operation. -/
def addKeyFor : BeaverKind → PyShape → PyShape → PyStr
  | .mul => mulAddKeyOf
  | .matmul => matmulAddKeyOf

/-- The get-path key of an operation. -/
def getKeyFor : BeaverKind → PyShape → PyShape → PyStr
  | .mul => mulGetKeyOf
  | .matmul => matmulGetKeyOf

/-! ## Tensors, the share factory and the triple generator -/

/-- A plaintext integer tensor, modelled two-dimensionally. -/
abbrev Mat := List (List Int)

/-- The entry of a matrix at row `i`, column `j` (0 outside the matrix). -/
def matEntry (A : Mat) (i j : Nat) : Int := (A.getD i []).getD j 0

/-- `A` is a rectangular `r × c` matrix. -/
def matShape (A : Mat) (r c : Nat) : Prop :=
  A.length = r ∧ ∀ row ∈ A, row.length = c

instance (A : Mat) (r c : Nat) : Decidable (matShape A r c) := by
  unfold matShape; infer_instance

/-- Modelled from the spec: `operator.mul` on the syft integer `Tensor`
(the `Tensor` class is not under `src/`) multiplies same-shaped tensors
elementwise; values are tracked modulo the ring size. -/
def elemMulRing (ring : Int) (A B : Mat) : Mat :=
  List.zipWith (fun r s => List.zipWith (fun x y => (x * y) % ring) r s) A B

/-- Modelled from the spec: `operator.matmul` on the syft integer `Tensor`
(the `Tensor` class is not under `src/`) is the matrix product; values are
tracked modulo the ring size. -/
def matMulRing (ring : Int) (A B : Mat) : Mat :=
  A.map (fun row =>
    (pyZipStar B).map (fun col => (List.zipWith (· * ·) row col).sum % ring))

/-- Elementwise difference (shapes truncate like `zipWith`). -/
def matSub (A B : Mat) : Mat :=
  List.zipWith (fun r s => List.zipWith (fun x y => x - y) r s) A B

/-- `A` minus every matrix in `rs`. -/
def matSubAll (A : Mat) (rs : List Mat) : Mat := rs.foldl matSub A

/-- Elementwise reduction modulo the ring size. -/
def matModRing (ring : Int) (A : Mat) : Mat :=
  A.map (fun row => row.map (fun x => x % ring))

/-- The `rows × cols` matrix drawn by the seeded pseudo-random generator for
share index `idx`; `prgE` abstracts the generator at entry level. -/
def seededMat (prgE : Nat → Nat → Nat → Nat → Int)
    (seed idx rows cols : Nat) : Mat :=
  (List.range rows).map (fun i => (List.range cols).map (fun j => prgE seed idx i j))

/-- Modelled from the spec: `MPCTensor._get_shares_from_local_secret`
(`MPCTensor` is not under `src/`) derives `nr_parties - 1` pseudo-random
shares of the requested shape from the seed and appends the residual share,
so that the shares sum to the secret modulo the ring. -/
def get_shares_from_local_secret (prgE : Nat → Nat → Nat → Nat → Int)
    (ring : Int) (secret : Mat) (nr_parties rows cols seed : Nat) : List Mat :=
  let rands := (List.range (nr_parties - 1)).map
    (fun i => seededMat prgE seed i rows cols)
  rands ++ [matModRing ring (matSubAll secret rands)]

/-- `_get_triples` with its randomness made explicit: `randbits ctr` models
the single `secrets.randbits(32)` call (`ctr` is the position in the entropy
stream, returned incremented once per draw), and `a_rand`, `b_rand` are the
two operands already drawn from the module-level `ttp_generator`.  `cmd` is
the plaintext combinator resolved by `getattr(operator, op_str)`. -/
def get_triples (cmd : Mat → Mat → Mat) (prgE : Nat → Nat → Nat → Nat → Int)
    (ring : Int) (randbits : Nat → Nat) (ctr : Nat)
    (a_rand b_rand : Mat) (nr_parties : Nat) :
    List (List (List Mat)) × Nat :=
  let seed_shares := randbits ctr
  let a_shares := get_shares_from_local_secret prgE ring a_rand nr_parties
    a_rand.length (a_rand.getD 0 []).length seed_shares
  let b_shares := get_shares_from_local_secret prgE ring b_rand nr_parties
    b_rand.length (b_rand.getD 0 []).length seed_shares
  let c_val := cmd a_rand b_rand
  let c_shares := get_shares_from_local_secret prgE ring c_val nr_parties
    c_val.length (c_val.getD 0 []).length seed_shares
  (beaverReshape [(a_shares, b_shares, c_shares)], ctr + 1)

/-- `get_triples_mul`: `_get_triples("mul", ...)`. -/
def get_triples_mul (prgE : Nat → Nat → Nat → Nat → Int) (ring : Int)
    (randbits : Nat → Nat) (ctr : Nat) (a_rand b_rand : Mat)
    (nr_parties : Nat) : List (List (List Mat)) × Nat :=
  get_triples (elemMulRing ring) prgE ring randbits ctr a_rand b_rand nr_parties

/-- `get_triples_matmul`: `_get_triples("matmul", ...)`. -/
def get_triples_matmul (prgE : Nat → Nat → Nat → Nat → Int) (ring : Int)
    (randbits : Nat → Nat) (ctr : Nat) (a_rand b_rand : Mat)
    (nr_parties : Nat) : List (List (List Mat)) × Nat :=
  get_triples (matMulRing ring) prgE ring randbits ctr a_rand b_rand nr_parties

/-- The `UnknownOperationError` of the operation registry. -/
inductive UnknownOperationError where
  | unknownOperation
  deriving DecidableEq

/-- The operation names with a registered primitive generator. -/
def registeredOps : List String := ["beaver_mul", "beaver_matmul"]

/-- Modelled from the spec: the primitive-generator registry of the smpc
store module (not under `src/`) dispatches on the registered operation name
and fails with `UnknownOperationError` on any other name, before any
randomness is consumed or any share produced. -/
def generate_primitives (prgE : Nat → Nat → Nat → Nat → Int) (ring : Int)
    (randbits : Nat → Nat) (ctr : Nat) (op_str : String)
    (a_rand b_rand : Mat) (nr_parties : Nat) :
    Except UnknownOperationError (List (List (List Mat))) × Nat :=
  if op_str = "beaver_mul" then
    let r := get_triples_mul prgE ring randbits ctr a_rand b_rand nr_parties
    (.ok r.1, r.2)
  else if op_str = "beaver_matmul" then
    let r := get_triples_matmul prgE ring randbits ctr a_rand b_rand nr_parties
    (.ok r.1, r.2)
  else
    (.error .unknownOperation, ctr)

/-! ## Transpose lemmas -/

theorem minLen_of_forall {α : Type _} {ls : List (List α)} {n : Nat}
    (h : ∀ l ∈ ls, l.length = n) (hne : ls ≠ []) : minLen ls = n := by
  induction ls with
  | nil => exact absurd rfl hne
  | cons l ls ih =>
    cases ls with
    | nil => simpa [minLen] using h l (by simp)
    | cons l' ls' =>
      rw [minLen, h l (by simp),
        ih (fun x hx => h x (List.mem_cons_of_mem _ hx)) (by simp)]
      simp

theorem pyZipStar_length [Inhabited α] (ls : List (List α)) :
    (pyZipStar ls).length = minLen ls := by
  simp [pyZipStar]

theorem pyZipStar_getD [Inhabited α] {ls : List (List α)} {i : Nat}
    (h : i < minLen ls) :
    (pyZipStar ls).getD i [] = ls.map (fun l => l.getD i default) := by
  have hlen : i < (pyZipStar ls).length := by simpa [pyZipStar_length] using h
  rw [List.getD_eq_getElem _ _ hlen]
  simp [pyZipStar]

theorem minLen_triple {α : Type _} {a b c : List α} {n : Nat}
    (ha : a.length = n) (hb : b.length = n) (hc : c.length = n) :
    minLen [a, b, c] = n := by
  rw [minLen, minLen, minLen, ha, hb, hc]
  simp

theorem beaverReshape_length [Inhabited α]
    {ts : List (List α × List α × List α)} {n : Nat} (hne : ts ≠ [])
    (h : ∀ x ∈ ts, x.1.length = n ∧ x.2.1.length = n ∧ x.2.2.length = n) :
    (beaverReshape ts).length = n := by
  rw [beaverReshape, pyZipStar_length]
  refine minLen_of_forall ?_ (by simpa using hne)
  intro l hl
  simp only [List.mem_map] at hl
  obtain ⟨x, hx, rfl⟩ := hl
  obtain ⟨h1, h2, h3⟩ := h x hx
  rw [pyZipStar_length, minLen_triple h1 h2 h3]

theorem beaverReshape_getD [Inhabited α]
    {ts : List (List α × List α × List α)} {n : Nat} (hne : ts ≠ [])
    (h : ∀ x ∈ ts, x.1.length = n ∧ x.2.1.length = n ∧ x.2.2.length = n)
    {i : Nat} (hi : i < n) :
    (beaverReshape ts).getD i [] =
      ts.map (fun x =>
        [x.1.getD i default, x.2.1.getD i default, x.2.2.getD i default]) := by
  rw [beaverReshape, pyZipStar_getD, List.map_map]
  · refine List.map_congr_left ?_
    intro x hx
    obtain ⟨h1, h2, h3⟩ := h x hx
    show (pyZipStar [x.1, x.2.1, x.2.2]).getD i [] = _
    rw [pyZipStar_getD (by rw [minLen_triple h1 h2 h3]; exact hi)]
    simp
  · rw [minLen_of_forall _ (by simpa using hne)]
    · exact hi
    · intro l hl
      simp only [List.mem_map] at hl
      obtain ⟨x, hx, rfl⟩ := hl
      obtain ⟨h1, h2, h3⟩ := h x hx
      rw [pyZipStar_length, minLen_triple h1 h2 h3]

/-! ## Claim C2 -/

/-- Claim C2 as stated is false: with `m = 0` instances (and any number of
parties, here `n = 2`), the zip-based reshape produces `[]` — zero per-party
bundles — because Python's `zip()` over an empty argument list yields
nothing; the claim requires exactly `n` bundles, each of length `m = 0`. -/
theorem reshape_zero_instances_cex :
    (beaverReshape ([] : List (List Int × List Int × List Int))).length ≠ 2 := by
  decide

/-- Claim C2 (amended: for every number of instances `m ≥ 1` rather than
`m ≥ 0`): for `m` per-instance records whose three share lists all have
length `n`, the zip/transpose reshape of `_get_triples` produces exactly `n`
per-party bundles, each of length `m`, and party `i`'s entry at position `j`
is exactly `[a_shares[j][i], b_shares[j][i], c_shares[j][i]]` — instance
order is preserved and a party's a-, b-, c-shares are never permuted
relative to each other. -/
theorem reshape_fidelity [Inhabited α]
    (ts : List (List α × List α × List α)) (n : Nat) (hn : 2 ≤ n)
    (hm : 1 ≤ ts.length)
    (h : ∀ x ∈ ts, x.1.length = n ∧ x.2.1.length = n ∧ x.2.2.length = n) :
    (beaverReshape ts).length = n ∧
    ∀ i, i < n →
      ((beaverReshape ts).getD i []).length = ts.length ∧
      ∀ j, j < ts.length →
        ((beaverReshape ts).getD i []).getD j [] =
          [(ts.getD j default).1.getD i default,
           (ts.getD j default).2.1.getD i default,
           (ts.getD j default).2.2.getD i default] := by
  have hne : ts ≠ [] := by
    intro hts
    rw [hts] at hm
    simp at hm
  refine ⟨beaverReshape_length hne h, ?_⟩
  intro i hi
  rw [beaverReshape_getD hne h hi]
  refine ⟨by simp, ?_⟩
  intro j hj
  have hj' : j < (ts.map (fun x =>
      [x.1.getD i default, x.2.1.getD i default, x.2.2.getD i default])).length := by
    simpa using hj
  rw [List.getD_eq_getElem _ _ hj', List.getElem_map,
    List.getD_eq_getElem _ _ hj]

/-- Witness for `reshape_fidelity` at two instances and two parties. -/
theorem reshape_fidelity_witness :
    ((beaverReshape [(([1, 2] : List Int), ([3, 4] : List Int), ([5, 6] : List Int)),
        ([7, 8], [9, 10], [11, 12])]).getD 0 []).getD 1 [] =
      [(([(([1, 2] : List Int), ([3, 4] : List Int), ([5, 6] : List Int)),
          ([7, 8], [9, 10], [11, 12])].getD 1 default)).1.getD 0 default,
       (([(([1, 2] : List Int), ([3, 4] : List Int), ([5, 6] : List Int)),
          ([7, 8], [9, 10], [11, 12])].getD 1 default)).2.1.getD 0 default,
       (([(([1, 2] : List Int), ([3, 4] : List Int), ([5, 6] : List Int)),
          ([7, 8], [9, 10], [11, 12])].getD 1 default)).2.2.getD 0 default] :=
  ((reshape_fidelity
      [(([1, 2] : List Int), ([3, 4] : List Int), ([5, 6] : List Int)),
       ([7, 8], [9, 10], [11, 12])] 2 (by decide) (by decide)
      (by decide)).2 0 (by decide)).2 1 (by decide)

/-! ## Claim C6 -/

/-- Claim C6: in every call to the triple generator exactly one
share-splitting seed is drawn (`secrets.randbits(32)`; the entropy counter
advances by exactly one), and that same seed value is passed to all three
share-splitting calls — for A, for B and for C.  The statement holds for
every plaintext combinator `cmd` and every entry generator `prgE`. -/
theorem get_triples_single_seed (cmd : Mat → Mat → Mat)
    (prgE : Nat → Nat → Nat → Nat → Int) (ring : Int)
    (randbits : Nat → Nat) (ctr : Nat) (a_rand b_rand : Mat)
    (nr_parties : Nat) :
    ∃ seed, seed = randbits ctr ∧
      (get_triples cmd prgE ring randbits ctr a_rand b_rand nr_parties).2 =
        ctr + 1 ∧
      (get_triples cmd prgE ring randbits ctr a_rand b_rand nr_parties).1 =
        beaverReshape
          [(get_shares_from_local_secret prgE ring a_rand nr_parties
              a_rand.length (a_rand.getD 0 []).length seed,
            get_shares_from_local_secret prgE ring b_rand nr_parties
              b_rand.length (b_rand.getD 0 []).length seed,
            get_shares_from_local_secret prgE ring (cmd a_rand b_rand)
              nr_parties (cmd a_rand b_rand).length
              ((cmd a_rand b_rand).getD 0 []).length seed)] :=
  ⟨randbits ctr, rfl, rfl, rfl⟩

/-! ## Store lemmas -/

theorem storeSet_self (s : Store α) (k : PyStr) (q : List α) :
    storeSet s k q k = some q := by
  simp [storeSet]

theorem storeSet_other (s : Store α) {k k' : PyStr} (q : List α)
    (h : k' ≠ k) : storeSet s k q k' = s k' := by
  simp [storeSet, h]

theorem mul_store_add_lookup (s : Store α) (prims : List α)
    (a b : PyShape) :
    mul_store_add s prims a b (mulAddKeyOf a b) =
      some ((s (mulAddKeyOf a b)).getD [] ++ prims) := by
  cases h : s (mulAddKeyOf a b) <;> simp [mul_store_add, h, storeSet]

theorem mul_store_add_other (s : Store α) (prims : List α)
    (a b : PyShape) {k : PyStr} (h : k ≠ mulAddKeyOf a b) :
    mul_store_add s prims a b k = s k := by
  cases hq : s (mulAddKeyOf a b) <;> simp [mul_store_add, hq, storeSet, h]

theorem matmul_store_add_lookup (s : Store α) (prims : List α)
    (a b : PyShape) :
    matmul_store_add s prims a b (matmulAddKeyOf a b) =
      some ((s (matmulAddKeyOf a b)).getD [] ++ prims) := by
  cases h : s (matmulAddKeyOf a b) <;> simp [matmul_store_add, h, storeSet]

theorem matmul_store_add_other (s : Store α) (prims : List α)
    (a b : PyShape) {k : PyStr} (h : k ≠ matmulAddKeyOf a b) :
    matmul_store_add s prims a b k = s k := by
  cases hq : s (matmulAddKeyOf a b) <;> simp [matmul_store_add, hq, storeSet, h]

theorem mul_store_get_none {s : Store α} {a b : PyShape} {remove : Bool}
    (h : s (mulGetKeyOf a b) = none) :
    mul_store_get s a b remove = (.error .keyAbsent, s) := by
  simp [mul_store_get, h]

theorem mul_store_get_nil {s : Store α} {a b : PyShape} {remove : Bool}
    (h : s (mulGetKeyOf a b) = some []) :
    mul_store_get s a b remove = (.error .noPrimitive, s) := by
  simp [mul_store_get, h]

theorem mul_store_get_cons {s : Store α} {a b : PyShape} {remove : Bool}
    {p : α} {rest : List α} (h : s (mulGetKeyOf a b) = some (p :: rest)) :
    mul_store_get s a b remove =
      (.ok p, if remove then storeSet s (mulGetKeyOf a b) rest else s) := by
  simp [mul_store_get, h]

theorem matmul_store_get_none {s : Store α} {a b : PyShape} {remove : Bool}
    (h : s (matmulGetKeyOf a b) = none) :
    matmul_store_get s a b remove = (.error .keyAbsent, s) := by
  simp [matmul_store_get, h]

theorem matmul_store_get_nil {s : Store α} {a b : PyShape} {remove : Bool}
    (h : s (matmulGetKeyOf a b) = some []) :
    matmul_store_get s a b remove = (.error .noPrimitive, s) := by
  simp [matmul_store_get, h]

theorem matmul_store_get_cons {s : Store α} {a b : PyShape} {remove : Bool}
    {p : α} {rest : List α} (h : s (matmulGetKeyOf a b) = some (p :: rest)) :
    matmul_store_get s a b remove =
      (.ok p, if remove then storeSet s (matmulGetKeyOf a b) rest else s) := by
  simp [matmul_store_get, h]

/-! ## Claim C4 -/

theorem mul_store_get_spec_aux (s : Store α) (a b : PyShape) (remove : Bool) :
    ((∃ e, (mul_store_get s a b remove).1 = .error e) ↔
      (s (mulGetKeyOf a b) = none ∨ s (mulGetKeyOf a b) = some [])) ∧
    ∀ p rest, s (mulGetKeyOf a b) = some (p :: rest) →
      (mul_store_get s a b remove).1 = .ok p ∧
      (mul_store_get s a b remove).2 =
        (if remove then storeSet s (mulGetKeyOf a b) rest else s) := by
  constructor
  · constructor
    · rintro ⟨e, he⟩
      cases hq : s (mulGetKeyOf a b) with
      | none => exact Or.inl rfl
      | some q =>
        cases q with
        | nil => exact Or.inr rfl
        | cons p rest =>
          rw [mul_store_get_cons hq] at he
          simp at he
    · rintro (hq | hq)
      · exact ⟨.keyAbsent, by rw [mul_store_get_none hq]⟩
      · exact ⟨.noPrimitive, by rw [mul_store_get_nil hq]⟩
  · intro p rest hq
    rw [mul_store_get_cons hq]
    exact ⟨rfl, rfl⟩

theorem matmul_store_get_spec_aux (s : Store α) (a b : PyShape)
    (remove : Bool) :
    ((∃ e, (matmul_store_get s a b remove).1 = .error e) ↔
      (s (matmulGetKeyOf a b) = none ∨ s (matmulGetKeyOf a b) = some [])) ∧
    ∀ p rest, s (matmulGetKeyOf a b) = some (p :: rest) →
      (matmul_store_get s a b remove).1 = .ok p ∧
      (matmul_store_get s a b remove).2 =
        (if remove then storeSet s (matmulGetKeyOf a b) rest else s) := by
  constructor
  · constructor
    · rintro ⟨e, he⟩
      cases hq : s (matmulGetKeyOf a b) with
      | none => exact Or.inl rfl
      | some q =>
        cases q with
        | nil => exact Or.inr rfl
        | cons p rest =>
          rw [matmul_store_get_cons hq] at he
          simp at he
    · rintro (hq | hq)
      · exact ⟨.keyAbsent, by rw [matmul_store_get_none hq]⟩
      · exact ⟨.noPrimitive, by rw [matmul_store_get_nil hq]⟩
  · intro p rest hq
    rw [matmul_store_get_cons hq]
    exact ⟨rfl, rfl⟩

/-- Claim C4: for every store state, shapes and remove flag, `store_get`
raises `EmptyPrimitiveStore` if and only if the key is absent or its queue
is empty; otherwise it returns the element at index 0 of the queue, and when
`remove` is true it additionally deletes that element (the key is remapped
to the queue's tail). -/
theorem store_get_spec (k : BeaverKind) (s : Store α) (a b : PyShape)
    (remove : Bool) :
    ((∃ e, (store_get_for k s a b remove).1 = .error e) ↔
      (s (getKeyFor k a b) = none ∨ s (getKeyFor k a b) = some [])) ∧
    ∀ p rest, s (getKeyFor k a b) = some (p :: rest) →
      (store_get_for k s a b remove).1 = .ok p ∧
      (store_get_for k s a b remove).2 =
        (if remove then storeSet s (getKeyFor k a b) rest else s) := by
  cases k
  · exact mul_store_get_spec_aux s a b remove
  · exact matmul_store_get_spec_aux s a b remove

/-- Witness for `store_get_spec`: a one-element queue is returned and
consumed, and the empty store errors. -/
theorem store_get_spec_witness :
    (store_get_for .mul
        (storeSet (emptyStore : Store Int) (mulGetKeyOf (.tup [1]) (.tup [2])) [7])
        (.tup [1]) (.tup [2]) true).1 = .ok 7 ∧
    (store_get_for .mul
        (storeSet (emptyStore : Store Int) (mulGetKeyOf (.tup [1]) (.tup [2])) [7])
        (.tup [1]) (.tup [2]) true).2 =
      (if true then
        storeSet
          (storeSet (emptyStore : Store Int) (mulGetKeyOf (.tup [1]) (.tup [2])) [7])
          (getKeyFor .mul (.tup [1]) (.tup [2])) []
      else storeSet (emptyStore : Store Int) (mulGetKeyOf (.tup [1]) (.tup [2])) [7]) ∧
    ∃ e, (store_get_for .matmul (emptyStore : Store Int)
        (.tup [1]) (.tup [2]) true).1 = .error e :=
  ⟨((store_get_spec .mul _ (.tup [1]) (.tup [2]) true).2 7 []
      (storeSet_self _ _ _)).1,
   ((store_get_spec .mul _ (.tup [1]) (.tup [2]) true).2 7 []
      (storeSet_self _ _ _)).2,
   (store_get_spec .matmul (emptyStore : Store Int) (.tup [1]) (.tup [2])
      true).1.mpr (Or.inl rfl)⟩

/-! ## Claim C10 -/

/-- Claim C10: whenever `store_get` raises `EmptyPrimitiveStore` — for
either operation, any store state, shapes and remove flag — the store is
left exactly as it was before the call. -/
theorem store_get_error_atomic (k : BeaverKind) (s : Store α)
    (a b : PyShape) (remove : Bool) (e : EmptyPrimitiveStore)
    (h : (store_get_for k s a b remove).1 = .error e) :
    (store_get_for k s a b remove).2 = s := by
  cases k
  · cases hq : s (mulGetKeyOf a b) with
    | none => rw [show store_get_for BeaverKind.mul s a b remove =
        mul_store_get s a b remove from rfl, mul_store_get_none hq]
    | some q =>
      cases q with
      | nil => rw [show store_get_for BeaverKind.mul s a b remove =
          mul_store_get s a b remove from rfl, mul_store_get_nil hq]
      | cons p rest =>
        rw [show store_get_for BeaverKind.mul s a b remove =
          mul_store_get s a b remove from rfl, mul_store_get_cons hq] at h
        simp at h
  · cases hq : s (matmulGetKeyOf a b) with
    | none => rw [show store_get_for BeaverKind.matmul s a b remove =
        matmul_store_get s a b remove from rfl, matmul_store_get_none hq]
    | some q =>
      cases q with
      | nil => rw [show store_get_for BeaverKind.matmul s a b remove =
          matmul_store_get s a b remove from rfl, matmul_store_get_nil hq]
      | cons p rest =>
        rw [show store_get_for BeaverKind.matmul s a b remove =
          matmul_store_get s a b remove from rfl, matmul_store_get_cons hq] at h
        simp at h

/-- Witness for `store_get_error_atomic` on the empty store. -/
theorem store_get_error_atomic_witness :
    (store_get_for .mul (emptyStore : Store Int) (.tup [2]) (.tup [3])
        true).2 = (emptyStore : Store Int) :=
  store_get_error_atomic .mul emptyStore (.tup [2]) (.tup [3]) true
    .keyAbsent rfl

/-! ## Claim C5 -/

theorem tup_get_key_eq_add_key (da db : List Nat) :
    mulGetKeyOf (.tup da) (.tup db) = mulAddKeyOf (.tup da) (.tup db) := rfl

/-- Claim C5: for an initially empty (absent, or present and drained) key,
three `mul_store_add` calls appending `[t1]`, `[t2]`, `[t3]` build the queue
`[t1, t2, t3]` (the first add installs a new queue, later adds extend it),
and three successive `mul_store_get` calls with `remove = true` return
`t1`, `t2`, `t3` in order, after which a fourth call raises
`EmptyPrimitiveStore`. -/
theorem mul_store_fifo (s : Store α) (da db : List Nat) (t1 t2 t3 : α)
    (h : s (mulAddKeyOf (.tup da) (.tup db)) = none ∨
         s (mulAddKeyOf (.tup da) (.tup db)) = some []) :
    let a := PyShape.tup da
    let b := PyShape.tup db
    let s3 := mul_store_add
      (mul_store_add (mul_store_add s [t1] a b) [t2] a b) [t3] a b
    let g1 := mul_store_get s3 a b true
    let g2 := mul_store_get g1.2 a b true
    let g3 := mul_store_get g2.2 a b true
    let g4 := mul_store_get g3.2 a b true
    g1.1 = .ok t1 ∧ g2.1 = .ok t2 ∧ g3.1 = .ok t3 ∧
    g4.1 = .error .noPrimitive := by
  intro a b s3 g1 g2 g3 g4
  have hg : (s (mulAddKeyOf a b)).getD [] = [] := by
    rcases h with h | h <;> simp [h]
  have hs3 : s3 (mulGetKeyOf a b) = some [t1, t2, t3] := by
    show mul_store_add _ [t3] a b (mulAddKeyOf a b) = _
    rw [mul_store_add_lookup, mul_store_add_lookup, mul_store_add_lookup, hg]
    simp
  have h1 : g1 = (.ok t1, storeSet s3 (mulGetKeyOf a b) [t2, t3]) := by
    show mul_store_get s3 a b true = _
    rw [mul_store_get_cons hs3]
    simp
  have h2 : g2 = (.ok t2,
      storeSet g1.2 (mulGetKeyOf a b) [t3]) := by
    show mul_store_get g1.2 a b true = _
    rw [mul_store_get_cons (show g1.2 (mulGetKeyOf a b) = some (t2 :: [t3]) by
      rw [h1]; exact storeSet_self _ _ _)]
    simp
  have h3 : g3 = (.ok t3, storeSet g2.2 (mulGetKeyOf a b) []) := by
    show mul_store_get g2.2 a b true = _
    rw [mul_store_get_cons (show g2.2 (mulGetKeyOf a b) = some (t3 :: []) by
      rw [h2]; exact storeSet_self _ _ _)]
    simp
  have h4 : g4.1 = .error .noPrimitive := by
    show (mul_store_get g3.2 a b true).1 = _
    rw [mul_store_get_nil (show g3.2 (mulGetKeyOf a b) = some [] by
      rw [h3]; exact storeSet_self _ _ _)]
  exact ⟨by rw [h1], by rw [h2], by rw [h3], h4⟩

/-- Witness for `mul_store_fifo` on the empty store. -/
theorem mul_store_fifo_witness :
    (mul_store_get
        (mul_store_add
          (mul_store_add (mul_store_add (emptyStore : Store Int) [1]
            (.tup [1]) (.tup [1])) [2] (.tup [1]) (.tup [1]))
          [3] (.tup [1]) (.tup [1]))
        (.tup [1]) (.tup [1]) true).1 = .ok 1 ∧
    (mul_store_get
        (mul_store_get
          (mul_store_add
            (mul_store_add (mul_store_add (emptyStore : Store Int) [1]
              (.tup [1]) (.tup [1])) [2] (.tup [1]) (.tup [1]))
            [3] (.tup [1]) (.tup [1]))
          (.tup [1]) (.tup [1]) true).2
        (.tup [1]) (.tup [1]) true).1 = .ok 2 ∧
    (mul_store_get
        (mul_store_get
          (mul_store_get
            (mul_store_add
              (mul_store_add (mul_store_add (emptyStore : Store Int) [1]
                (.tup [1]) (.tup [1])) [2] (.tup [1]) (.tup [1]))
              [3] (.tup [1]) (.tup [1]))
            (.tup [1]) (.tup [1]) true).2
          (.tup [1]) (.tup [1]) true).2
        (.tup [1]) (.tup [1]) true).1 = .ok 3 ∧
    (mul_store_get
        (mul_store_get
          (mul_store_get
            (mul_store_get
              (mul_store_add
                (mul_store_add (mul_store_add (emptyStore : Store Int) [1]
                  (.tup [1]) (.tup [1])) [2] (.tup [1]) (.tup [1]))
                [3] (.tup [1]) (.tup [1]))
              (.tup [1]) (.tup [1]) true).2
            (.tup [1]) (.tup [1]) true).2
          (.tup [1]) (.tup [1]) true).2
        (.tup [1]) (.tup [1]) true).1 = .error .noPrimitive :=
  mul_store_fifo emptyStore [1] [1] 1 2 3 (Or.inl rfl)

/-! ## Claim C8 -/

/-- Claim C8: for a key whose queue is non-empty, two successive
`mul_store_get` calls with `remove = false` both return the head triple and
each leaves the whole store — the queue under the key and every other key —
exactly unchanged. -/
theorem mul_store_get_no_remove (s : Store α) (a b : PyShape) (p : α)
    (rest : List α) (h : s (mulGetKeyOf a b) = some (p :: rest)) :
    (mul_store_get s a b false).1 = .ok p ∧
    (mul_store_get s a b false).2 = s ∧
    (mul_store_get (mul_store_get s a b false).2 a b false).1 = .ok p ∧
    (mul_store_get (mul_store_get s a b false).2 a b false).2 = s := by
  have h1 : mul_store_get s a b false = (.ok p, s) := by
    rw [mul_store_get_cons h]
    simp
  refine ⟨by rw [h1], by rw [h1], ?_, ?_⟩ <;> rw [h1, mul_store_get_cons h] <;> simp

/-- Witness for `mul_store_get_no_remove` on a one-element queue. -/
theorem mul_store_get_no_remove_witness :
    (mul_store_get
        (storeSet (emptyStore : Store Int) (mulGetKeyOf (.tup [2]) (.tup [3])) [9])
        (.tup [2]) (.tup [3]) false).1 = .ok 9 ∧
    (mul_store_get
        (storeSet (emptyStore : Store Int) (mulGetKeyOf (.tup [2]) (.tup [3])) [9])
        (.tup [2]) (.tup [3]) false).2 =
      storeSet (emptyStore : Store Int) (mulGetKeyOf (.tup [2]) (.tup [3])) [9] ∧
    (mul_store_get
        (mul_store_get
          (storeSet (emptyStore : Store Int) (mulGetKeyOf (.tup [2]) (.tup [3])) [9])
          (.tup [2]) (.tup [3]) false).2
        (.tup [2]) (.tup [3]) false).1 = .ok 9 ∧
    (mul_store_get
        (mul_store_get
          (storeSet (emptyStore : Store Int) (mulGetKeyOf (.tup [2]) (.tup [3])) [9])
          (.tup [2]) (.tup [3]) false).2
        (.tup [2]) (.tup [3]) false).2 =
      storeSet (emptyStore : Store Int) (mulGetKeyOf (.tup [2]) (.tup [3])) [9] :=
  mul_store_get_no_remove _ (.tup [2]) (.tup [3]) 9 []
    (storeSet_self _ _ _)

/-! ## Claim C3 -/

/-- Claim C3 as stated is false: `mul_store_add` builds its key from the raw
shape containers (`f"beaver_mul_{a_shape}_{b_shape}"`, no `tuple(...)`),
so adding with shapes given as Python lists and retrieving with the
equivalent tuples addresses a different dict entry — the get raises
`EmptyPrimitiveStore` instead of returning the head of the added bundle.
Here: add `[7]` under list shapes `[2]`, `[3]`, then get with tuple shapes
`(2,)`, `(3,)`. -/
theorem mul_store_container_cex :
    mulAddKeyOf (.lst [2]) (.lst [3]) ≠ mulGetKeyOf (.lst [2]) (.lst [3]) ∧
    (mul_store_get
        (mul_store_add (emptyStore : Store Int) [7] (.lst [2]) (.lst [3]))
        (.tup [2]) (.tup [3]) true).1 = .error .keyAbsent := by
  constructor
  · decide
  · rfl

/-- Claim C3 (amended: only the get path normalizes shape containers to
tuples; the add path uses the raw container, so the two calls address the
same queue when the add is performed with shapes already given as plain
tuples, the get then accepting either container type): adding a non-empty
bundle under tuple shapes and retrieving with any equivalent container
addresses the same key and returns the bundle's head. -/
theorem mul_store_tuple_add_get (s : Store α) (da db : List Nat)
    (ca cb : PyShape) (t : α) (rest : List α)
    (hda : ca.dims = da) (hdb : cb.dims = db)
    (h : s (mulAddKeyOf (.tup da) (.tup db)) = none) :
    mulGetKeyOf ca cb = mulAddKeyOf (.tup da) (.tup db) ∧
    (mul_store_get (mul_store_add s (t :: rest) (.tup da) (.tup db))
        ca cb true).1 = .ok t := by
  have h1 : pyTuple ca = .tup da := by
    cases ca <;> simp [PyShape.dims] at hda <;> simp [pyTuple, hda]
  have h2 : pyTuple cb = .tup db := by
    cases cb <;> simp [PyShape.dims] at hdb <;> simp [pyTuple, hdb]
  have hkey : mulGetKeyOf ca cb = mulAddKeyOf (.tup da) (.tup db) := by
    rw [mulGetKeyOf, mulAddKeyOf, h1, h2]
  refine ⟨hkey, ?_⟩
  have hlook : (mul_store_add s (t :: rest) (.tup da) (.tup db))
      (mulGetKeyOf ca cb) = some (t :: rest) := by
    rw [hkey, mul_store_add_lookup, h]
    simp
  rw [mul_store_get_cons hlook]

/-- Witness for `mul_store_tuple_add_get`: add with tuples, get with lists. -/
theorem mul_store_tuple_add_get_witness :
    mulGetKeyOf (.lst [2]) (.lst [3]) = mulAddKeyOf (.tup [2]) (.tup [3]) ∧
    (mul_store_get
        (mul_store_add (emptyStore : Store Int) [7] (.tup [2]) (.tup [3]))
        (.lst [2]) (.lst [3]) true).1 = .ok 7 :=
  mul_store_tuple_add_get emptyStore [2] [3] (.lst [2]) (.lst [3]) 7 []
    rfl rfl rfl

/-! ## Decimal strings: decoding and injectivity -/

/-- Decode little-endian decimal digits. -/
def ofDigitsLE : List Nat → Nat
  | [] => 0
  | d :: ds => d + 10 * ofDigitsLE ds

theorem digitsLE_sound : ∀ fuel n, n ≤ fuel →
    ofDigitsLE (digitsLE fuel n) = n := by
  intro fuel
  induction fuel with
  | zero =>
    intro n hn
    interval_cases n
    rfl
  | succ fuel ih =>
    intro n hn
    by_cases h0 : n = 0
    · rw [h0]
      rfl
    · rw [digitsLE, if_neg h0, ofDigitsLE,
        ih (n / 10) (by
          have := Nat.div_lt_self (Nat.pos_of_ne_zero h0)
            (by norm_num : 1 < 10)
          omega)]
      omega

theorem digitsLE_lt_ten : ∀ fuel n d, d ∈ digitsLE fuel n → d < 10 := by
  intro fuel
  induction fuel with
  | zero =>
    intro n d hd
    simp [digitsLE] at hd
  | succ fuel ih =>
    intro n d hd
    rw [digitsLE] at hd
    by_cases h0 : n = 0
    · rw [if_pos h0] at hd
      simp at hd
    · rw [if_neg h0] at hd
      rcases List.mem_cons.mp hd with h | h
      · omega
      · exact ih _ _ h

theorem digitsLE_ne_nil {n : Nat} (hn : n ≠ 0) : digitsLE n n ≠ [] := by
  cases n with
  | zero => exact absurd rfl hn
  | succ k =>
    rw [digitsLE, if_neg hn]
    simp

theorem digitChar_inj {d e : Nat} (hd : d < 10) (he : e < 10)
    (h : digitChar d = digitChar e) : d = e := by
  interval_cases d <;> interval_cases e <;> revert h <;> decide

theorem map_digitChar_inj : ∀ xs ys : List Nat, (∀ d ∈ xs, d < 10) →
    (∀ d ∈ ys, d < 10) → xs.map digitChar = ys.map digitChar → xs = ys := by
  intro xs
  induction xs with
  | nil =>
    intro ys _ _ h
    cases ys with
    | nil => rfl
    | cons y ys => simp at h
  | cons x xs ih =>
    intro ys hx hy h
    cases ys with
    | nil => simp at h
    | cons y ys =>
      simp only [List.map_cons, List.cons.injEq] at h
      rw [digitChar_inj (hx x (by simp)) (hy y (by simp)) h.1,
        ih ys (fun d hd => hx d (List.mem_cons_of_mem _ hd))
          (fun d hd => hy d (List.mem_cons_of_mem _ hd)) h.2]

theorem pyNatStr_eq_zero_aux {m : Nat}
    (h : (digitsLE m m).reverse.map digitChar = ['0']) : m = 0 := by
  have h1 : (digitsLE m m).reverse = [0] := by
    refine map_digitChar_inj _ [0]
      (fun d hd => digitsLE_lt_ten _ _ _ (List.mem_reverse.mp hd))
      (by simp) ?_
    simpa [digitChar] using h
  have h2 : digitsLE m m = [0] := by
    have := congrArg List.reverse h1
    simpa using this
  have h3 := digitsLE_sound m m le_rfl
  rw [h2] at h3
  simp [ofDigitsLE] at h3
  omega

theorem pyNatStr_inj {n m : Nat} (h : pyNatStr n = pyNatStr m) : n = m := by
  unfold pyNatStr at h
  by_cases hn : n = 0 <;> by_cases hm : m = 0
  · omega
  · rw [if_pos hn, if_neg hm] at h
    exact absurd (pyNatStr_eq_zero_aux h.symm) hm
  · rw [if_neg hn, if_pos hm] at h
    exact absurd (pyNatStr_eq_zero_aux h) hn
  · rw [if_neg hn, if_neg hm] at h
    have h1 := map_digitChar_inj _ _
      (fun d hd => digitsLE_lt_ten _ _ _ (List.mem_reverse.mp hd))
      (fun d hd => digitsLE_lt_ten _ _ _ (List.mem_reverse.mp hd)) h
    have h2 : digitsLE n n = digitsLE m m := by
      have := congrArg List.reverse h1
      simpa using this
    have h3 := digitsLE_sound n n le_rfl
    rw [h2, digitsLE_sound m m le_rfl] at h3
    omega

theorem pyNatStr_ne_nil (n : Nat) : pyNatStr n ≠ [] := by
  unfold pyNatStr
  by_cases hn : n = 0
  · simp [hn]
  · rw [if_neg hn]
    simp only [ne_eq, List.map_eq_nil_iff, List.reverse_eq_nil_iff]
    exact digitsLE_ne_nil hn

/-- The ten decimal digit characters. -/
def decChars : PyStr := ['0', '1', '2', '3', '4', '5', '6', '7', '8', '9']

theorem mem_pyNatStr {c : Char} {n : Nat} (h : c ∈ pyNatStr n) :
    c ∈ decChars := by
  unfold pyNatStr at h
  by_cases hn : n = 0
  · rw [if_pos hn] at h
    simp at h
    simp [h, decChars]
  · rw [if_neg hn] at h
    simp only [List.mem_map] at h
    obtain ⟨d, hd, rfl⟩ := h
    have hlt : d < 10 := digitsLE_lt_ten _ _ _ (List.mem_reverse.mp hd)
    interval_cases d <;> decide

theorem pyNatStr_comma_not_mem (n : Nat) : ',' ∉ pyNatStr n := by
  intro h
  have := mem_pyNatStr h
  revert this
  decide

/-! ## Separator splitting -/

theorem append_cons_cancel {c : Char} :
    ∀ {u u' v v' : PyStr}, c ∉ u → c ∉ u' →
      u ++ c :: v = u' ++ c :: v' → u = u' ∧ v = v' := by
  intro u
  induction u with
  | nil =>
    intro u' v v' _ hu' h
    cases u' with
    | nil => simpa using h
    | cons a u' =>
      simp only [List.nil_append, List.cons_append, List.cons.injEq] at h
      exact absurd (by rw [h.1]; exact List.mem_cons_self a u') hu'
  | cons x u ih =>
    intro u' v v' hu hu' h
    cases u' with
    | nil =>
      simp only [List.cons_append, List.nil_append, List.cons.injEq] at h
      exact absurd (by rw [← h.1]; exact List.mem_cons_self x u) hu
    | cons y u' =>
      simp only [List.cons_append, List.cons.injEq] at h
      obtain ⟨rfl, h2⟩ := h
      have h3 := ih (fun hc => hu (List.mem_cons_of_mem _ hc))
        (fun hc => hu' (List.mem_cons_of_mem _ hc)) h2
      exact ⟨by rw [h3.1], h3.2⟩

theorem mem_commaJoin {c : Char} : ∀ {xs : List PyStr}, c ∈ commaJoin xs →
    c = ',' ∨ c = ' ' ∨ ∃ x ∈ xs, c ∈ x := by
  intro xs
  induction xs with
  | nil =>
    intro h
    simp [commaJoin] at h
  | cons x xs ih =>
    intro h
    cases xs with
    | nil => exact Or.inr (Or.inr ⟨x, by simp, by simpa [commaJoin] using h⟩)
    | cons y ys =>
      rw [commaJoin] at h
      rcases List.mem_append.mp h with h | h
      · exact Or.inr (Or.inr ⟨x, by simp, h⟩)
      · rcases List.mem_cons.mp h with h | h
        · exact Or.inl h
        · rcases List.mem_cons.mp h with h | h
          · exact Or.inr (Or.inl h)
          · rcases ih h with h | h | ⟨z, hz, hcz⟩
            · exact Or.inl h
            · exact Or.inr (Or.inl h)
            · exact Or.inr (Or.inr ⟨z, List.mem_cons_of_mem _ hz, hcz⟩)

theorem commaJoin_ne_nil : ∀ {xs : List PyStr}, xs ≠ [] →
    (∀ x ∈ xs, x ≠ []) → commaJoin xs ≠ [] := by
  intro xs hne hx
  cases xs with
  | nil => exact absurd rfl hne
  | cons x ys =>
    cases ys with
    | nil => simpa [commaJoin] using hx x (by simp)
    | cons y ys =>
      rw [commaJoin]
      intro h
      rcases List.append_eq_nil.mp h with ⟨_, h2⟩
      simp at h2

theorem commaJoin_inj : ∀ xs ys : List PyStr,
    (∀ x ∈ xs, x ≠ [] ∧ ',' ∉ x) → (∀ y ∈ ys, y ≠ [] ∧ ',' ∉ y) →
    commaJoin xs = commaJoin ys → xs = ys := by
  intro xs
  induction xs with
  | nil =>
    intro ys _ hy h
    cases ys with
    | nil => rfl
    | cons y ys =>
      exact absurd h.symm (commaJoin_ne_nil (by simp)
        (fun z hz => (hy z hz).1))
  | cons x xs ih =>
    intro ys hx hy h
    cases ys with
    | nil =>
      exact absurd h (commaJoin_ne_nil (by simp)
        (fun z hz => (hx z hz).1))
    | cons y ys =>
      cases xs with
      | nil =>
        cases ys with
        | nil => simpa [commaJoin] using h
        | cons y' ys' =>
          exfalso
          rw [commaJoin, commaJoin] at h
          exact (hx x (by simp)).2
            (by rw [h]; exact List.mem_append.mpr (Or.inr (by simp)))
      | cons x' xs' =>
        cases ys with
        | nil =>
          exfalso
          rw [commaJoin, commaJoin] at h
          exact (hy y (by simp)).2
            (by rw [← h]; exact List.mem_append.mpr (Or.inr (by simp)))
        | cons y' ys' =>
          rw [commaJoin, commaJoin] at h
          obtain ⟨h1, h2⟩ := append_cons_cancel (hx x (by simp)).2
            (hy y (by simp)).2 h
          simp only [List.cons.injEq, true_and] at h2
          rw [h1, ih (y' :: ys')
            (fun z hz => hx z (List.mem_cons_of_mem _ hz))
            (fun z hz => hy z (List.mem_cons_of_mem _ hz)) h2]

/-! ## Injectivity of tuple-shape strings and of store keys -/

theorem mem_pyShapeStr_tup {c : Char} {ds : List Nat}
    (h : c ∈ pyShapeStr (.tup ds)) :
    c = '(' ∨ c = ')' ∨ c = ',' ∨ c = ' ' ∨ c ∈ decChars := by
  match ds with
  | [] =>
    rw [pyShapeStr] at h
    rcases List.mem_cons.mp h with h | h
    · exact Or.inl h
    · simp at h
      tauto
  | [d] =>
    rw [pyShapeStr] at h
    rcases List.mem_cons.mp h with h | h
    · exact Or.inl h
    · rcases List.mem_append.mp h with h | h
      · exact Or.inr (Or.inr (Or.inr (Or.inr (mem_pyNatStr h))))
      · simp at h
        tauto
  | d :: d' :: ds' =>
    rw [pyShapeStr] at h
    rcases List.mem_cons.mp h with h | h
    · exact Or.inl h
    · rcases List.mem_append.mp h with h | h
      · rcases mem_commaJoin h with h | h | ⟨z, hz, hcz⟩
        · tauto
        · tauto
        · simp only [List.mem_map] at hz
          obtain ⟨e, he, rfl⟩ := hz
          exact Or.inr (Or.inr (Or.inr (Or.inr (mem_pyNatStr hcz))))
      · simp at h
        tauto

theorem underscore_not_mem_tup (ds : List Nat) :
    '_' ∉ pyShapeStr (.tup ds) := by
  intro h
  rcases mem_pyShapeStr_tup h with h | h | h | h | h <;> revert h <;> decide

theorem commaJoin_natStrs_conds (l : List Nat) :
    ∀ x ∈ l.map pyNatStr, x ≠ [] ∧ ',' ∉ x := by
  intro x hx
  simp only [List.mem_map] at hx
  obtain ⟨d, hd, rfl⟩ := hx
  exact ⟨pyNatStr_ne_nil d, pyNatStr_comma_not_mem d⟩

theorem tupStr_nil_ne_single (e : Nat) :
    pyShapeStr (.tup []) ≠ pyShapeStr (.tup [e]) := by
  intro h
  rw [pyShapeStr, pyShapeStr] at h
  have := congrArg List.length h
  simp at this

theorem tupStr_nil_ne_multi (e e' : Nat) (es : List Nat) :
    pyShapeStr (.tup []) ≠ pyShapeStr (.tup (e :: e' :: es)) := by
  intro h
  rw [pyShapeStr, pyShapeStr] at h
  simp only [List.cons.injEq, true_and] at h
  have hlen := congrArg List.length h
  simp at hlen
  exact commaJoin_ne_nil (by simp)
    (fun x hx =>
      (commaJoin_natStrs_conds (e :: e' :: es) x (by simpa using hx)).1) hlen

theorem tupStr_single_ne_multi (d e e' : Nat) (es : List Nat) :
    pyShapeStr (.tup [d]) ≠ pyShapeStr (.tup (e :: e' :: es)) := by
  intro h
  rw [pyShapeStr, pyShapeStr] at h
  simp only [List.cons.injEq, true_and, List.map_cons, commaJoin,
    List.append_assoc, List.cons_append] at h
  obtain ⟨h1, h2⟩ := append_cons_cancel (pyNatStr_comma_not_mem d)
    (pyNatStr_comma_not_mem e) h
  have h3 : (')' : Char) = ' ' := by
    have := congrArg (fun l => l.getD 0 ' ') h2
    simpa using this
  exact absurd h3 (by decide)

theorem tupStr_inj : ∀ {ds es : List Nat},
    pyShapeStr (.tup ds) = pyShapeStr (.tup es) → ds = es := by
  intro ds es h
  match ds, es with
  | [], [] => rfl
  | [], [e] => exact absurd h (tupStr_nil_ne_single e)
  | [], e :: e' :: es' => exact absurd h (tupStr_nil_ne_multi e e' es')
  | [d], [] => exact absurd h.symm (tupStr_nil_ne_single d)
  | d :: d' :: ds', [] => exact absurd h.symm (tupStr_nil_ne_multi d d' ds')
  | [d], [e] =>
    rw [pyShapeStr, pyShapeStr] at h
    simp only [List.cons.injEq, true_and] at h
    obtain ⟨h1, _⟩ := List.append_inj' h rfl
    rw [pyNatStr_inj h1]
  | [d], e :: e' :: es' => exact absurd h (tupStr_single_ne_multi d e e' es')
  | d :: d' :: ds', [e] => exact absurd h.symm (tupStr_single_ne_multi e d d' ds')
  | d :: d' :: ds', e :: e' :: es' =>
    rw [pyShapeStr, pyShapeStr] at h
    simp only [List.cons.injEq, true_and] at h
    obtain ⟨h1, _⟩ := List.append_inj' h rfl
    have h2 := commaJoin_inj _ _ (commaJoin_natStrs_conds (d :: d' :: ds'))
      (commaJoin_natStrs_conds (e :: e' :: es')) h1
    exact List.map_injective_iff.mpr (fun a b hab => pyNatStr_inj hab) h2

theorem mulKeyHead_ne_matmul (s t : PyStr) :
    mulKeyHead ++ s ≠ matmulKeyHead ++ t := by
  intro h
  simp only [mulKeyHead, matmulKeyHead, List.cons_append, List.cons.injEq] at h
  simp at h

theorem beaver_key_inj {k1 k2 : BeaverKind} {da1 db1 da2 db2 : List Nat}
    (h : getKeyFor k1 (.tup da1) (.tup db1) =
      getKeyFor k2 (.tup da2) (.tup db2)) :
    k1 = k2 ∧ da1 = da2 ∧ db1 = db2 := by
  cases k1 <;> cases k2
  · have h' := List.append_cancel_left
      (h : mulKeyHead ++ _ = mulKeyHead ++ _)
    obtain ⟨hA, hB⟩ := append_cons_cancel (underscore_not_mem_tup da1)
      (underscore_not_mem_tup da2) h'
    exact ⟨rfl, tupStr_inj hA, tupStr_inj hB⟩
  · exact absurd h (mulKeyHead_ne_matmul _ _)
  · exact absurd h.symm (mulKeyHead_ne_matmul _ _)
  · have h' := List.append_cancel_left
      (h : matmulKeyHead ++ _ = matmulKeyHead ++ _)
    obtain ⟨hA, hB⟩ := append_cons_cancel (underscore_not_mem_tup da1)
      (underscore_not_mem_tup da2) h'
    exact ⟨rfl, tupStr_inj hA, tupStr_inj hB⟩

/-! ## Claim C9 -/

theorem mul_store_get_congr {s s' : Store α} {a b : PyShape} {remove : Bool}
    (h : s (mulGetKeyOf a b) = s' (mulGetKeyOf a b)) :
    (mul_store_get s a b remove).1 = (mul_store_get s' a b remove).1 := by
  cases hq : s' (mulGetKeyOf a b) with
  | none => rw [mul_store_get_none (h.trans hq), mul_store_get_none hq]
  | some q =>
    cases q with
    | nil => rw [mul_store_get_nil (h.trans hq), mul_store_get_nil hq]
    | cons p rest =>
      rw [mul_store_get_cons (h.trans hq), mul_store_get_cons hq]

theorem matmul_store_get_congr {s s' : Store α} {a b : PyShape}
    {remove : Bool}
    (h : s (matmulGetKeyOf a b) = s' (matmulGetKeyOf a b)) :
    (matmul_store_get s a b remove).1 = (matmul_store_get s' a b remove).1 := by
  cases hq : s' (matmulGetKeyOf a b) with
  | none => rw [matmul_store_get_none (h.trans hq), matmul_store_get_none hq]
  | some q =>
    cases q with
    | nil => rw [matmul_store_get_nil (h.trans hq), matmul_store_get_nil hq]
    | cons p rest =>
      rw [matmul_store_get_cons (h.trans hq), matmul_store_get_cons hq]

/-- Claim C9: a `store_add` under one key never touches a different key —
different operation name (`beaver_mul` keys never collide with
`beaver_matmul` keys) or different operand shapes — so a subsequent
`store_get` under the other key returns the same result as before the add. -/
theorem store_key_isolation (k1 k2 : BeaverKind) (da1 db1 da2 db2 : List Nat)
    (s : Store α) (prims : List α) (remove : Bool)
    (h : ¬(k1 = k2 ∧ da1 = da2 ∧ db1 = db2)) :
    (store_add_for k1 s prims (.tup da1) (.tup db1))
        (getKeyFor k2 (.tup da2) (.tup db2)) =
      s (getKeyFor k2 (.tup da2) (.tup db2)) ∧
    (store_get_for k2 (store_add_for k1 s prims (.tup da1) (.tup db1))
        (.tup da2) (.tup db2) remove).1 =
      (store_get_for k2 s (.tup da2) (.tup db2) remove).1 := by
  have hkey : getKeyFor k2 (.tup da2) (.tup db2) ≠
      addKeyFor k1 (.tup da1) (.tup db1) := by
    intro he
    have he' : getKeyFor k2 (.tup da2) (.tup db2) =
        getKeyFor k1 (.tup da1) (.tup db1) :=
      he.trans (by cases k1 <;> rfl)
    obtain ⟨e1, e2, e3⟩ := beaver_key_inj he'
    exact h ⟨e1.symm, e2.symm, e3.symm⟩
  have hlook : (store_add_for k1 s prims (.tup da1) (.tup db1))
      (getKeyFor k2 (.tup da2) (.tup db2)) =
      s (getKeyFor k2 (.tup da2) (.tup db2)) := by
    cases k1
    · exact mul_store_add_other s prims _ _ hkey
    · exact matmul_store_add_other s prims _ _ hkey
  refine ⟨hlook, ?_⟩
  cases k2
  · exact mul_store_get_congr hlook
  · exact matmul_store_get_congr hlook

/-- Witness for `store_key_isolation`: a `beaver_mul` add does not disturb a
`beaver_matmul` get at the same shapes. -/
theorem store_key_isolation_witness :
    (store_add_for .mul (emptyStore : Store Int) [5] (.tup [2]) (.tup [3]))
        (getKeyFor .matmul (.tup [2]) (.tup [3])) =
      (emptyStore : Store Int) (getKeyFor .matmul (.tup [2]) (.tup [3])) ∧
    (store_get_for .matmul
        (store_add_for .mul (emptyStore : Store Int) [5] (.tup [2]) (.tup [3]))
        (.tup [2]) (.tup [3]) true).1 =
      (store_get_for .matmul (emptyStore : Store Int)
        (.tup [2]) (.tup [3]) true).1 :=
  store_key_isolation .mul .matmul [2] [3] [2] [3] emptyStore [5] true
    (by decide)

/-! ## Matrix-shape and entry lemmas -/

theorem getD_zipWith {α β γ : Type _} (f : α → β → γ) {x : List α}
    {y : List β} {j : Nat} (dx : α) (dy : β) (dz : γ)
    (hx : j < x.length) (hy : j < y.length) :
    (List.zipWith f x y).getD j dz = f (x.getD j dx) (y.getD j dy) := by
  rw [List.getD_eq_getElem _ _ (by rw [List.length_zipWith]; omega),
    List.getElem_zipWith, List.getD_eq_getElem _ _ hx,
    List.getD_eq_getElem _ _ hy]

theorem getD_map {α β : Type _} (f : α → β) {x : List α} {j : Nat}
    (dx : α) (db : β) (hx : j < x.length) :
    (x.map f).getD j db = f (x.getD j dx) := by
  rw [List.getD_eq_getElem _ _ (by simpa using hx), List.getElem_map,
    List.getD_eq_getElem _ _ hx]

theorem seededMat_shape (prgE : Nat → Nat → Nat → Nat → Int)
    (seed idx rows cols : Nat) :
    matShape (seededMat prgE seed idx rows cols) rows cols := by
  constructor
  · simp [seededMat]
  · intro row hrow
    simp only [seededMat, List.mem_map] at hrow
    obtain ⟨i, hi, rfl⟩ := hrow
    simp

theorem matShape_getD_zero_length {A : Mat} {r c : Nat}
    (hA : matShape A r c) (hr : 1 ≤ r) : (A.getD 0 []).length = c := by
  rw [List.getD_eq_getElem _ _ (by rw [hA.1]; omega)]
  exact hA.2 _ (List.getElem_mem _)

theorem matShape_getD_length {A : Mat} {r c i : Nat}
    (hA : matShape A r c) (hi : i < r) : (A.getD i []).length = c := by
  rw [List.getD_eq_getElem _ _ (by rw [hA.1]; omega)]
  exact hA.2 _ (List.getElem_mem _)

theorem matSub_shape {A B : Mat} {r c : Nat} (hA : matShape A r c)
    (hB : matShape B r c) : matShape (matSub A B) r c := by
  constructor
  · simp [matSub, hA.1, hB.1]
  · intro row hrow
    rw [List.mem_iff_getElem] at hrow
    obtain ⟨i, hilen, rfl⟩ := hrow
    simp only [matSub, List.getElem_zipWith, List.length_zipWith]
    rw [hA.2 _ (List.getElem_mem _), hB.2 _ (List.getElem_mem _)]
    simp

theorem matEntry_matSub {A B : Mat} {r c i j : Nat} (hA : matShape A r c)
    (hB : matShape B r c) (hi : i < r) (hj : j < c) :
    matEntry (matSub A B) i j = matEntry A i j - matEntry B i j := by
  have hiA : i < A.length := by rw [hA.1]; omega
  have hiB : i < B.length := by rw [hB.1]; omega
  have hjA : j < (A.getD i []).length := by
    rw [matShape_getD_length hA hi]; omega
  have hjB : j < (B.getD i []).length := by
    rw [matShape_getD_length hB hi]; omega
  unfold matEntry
  simp only [matSub]
  rw [getD_zipWith _ [] [] [] hiA hiB, getD_zipWith _ 0 0 0 hjA hjB]

theorem matSubAll_shape : ∀ (rs : List Mat) (A : Mat) {r c : Nat},
    matShape A r c → (∀ M ∈ rs, matShape M r c) →
    matShape (matSubAll A rs) r c := by
  intro rs
  induction rs with
  | nil => intro A r c hA _; exact hA
  | cons M rs ih =>
    intro A r c hA hrs
    exact ih (matSub A M) (matSub_shape hA (hrs M (by simp)))
      (fun N hN => hrs N (List.mem_cons_of_mem _ hN))

theorem matEntry_matSubAll : ∀ (rs : List Mat) (A : Mat) {r c i j : Nat},
    matShape A r c → (∀ M ∈ rs, matShape M r c) → i < r → j < c →
    matEntry (matSubAll A rs) i j =
      matEntry A i j - (rs.map (fun M => matEntry M i j)).sum := by
  intro rs
  induction rs with
  | nil =>
    intro A r c i j hA _ hi hj
    simp [matSubAll]
  | cons M rs ih =>
    intro A r c i j hA hrs hi hj
    have h1 : matSubAll A (M :: rs) = matSubAll (matSub A M) rs := rfl
    rw [h1, ih (matSub A M) (matSub_shape hA (hrs M (by simp)))
      (fun N hN => hrs N (List.mem_cons_of_mem _ hN)) hi hj,
      matEntry_matSub hA (hrs M (by simp)) hi hj]
    simp only [List.map_cons, List.sum_cons]
    ring

theorem matModRing_shape {A : Mat} {r c : Nat} (ring : Int)
    (hA : matShape A r c) : matShape (matModRing ring A) r c := by
  constructor
  · simp [matModRing, hA.1]
  · intro row hrow
    simp only [matModRing, List.mem_map] at hrow
    obtain ⟨row', hrow', rfl⟩ := hrow
    simp [hA.2 _ hrow']

theorem matEntry_matModRing {A : Mat} {r c i j : Nat} (ring : Int)
    (hA : matShape A r c) (hi : i < r) (hj : j < c) :
    matEntry (matModRing ring A) i j = matEntry A i j % ring := by
  have hiA : i < A.length := by rw [hA.1]; omega
  have hjA : j < (A.getD i []).length := by
    rw [matShape_getD_length hA hi]; omega
  unfold matEntry
  simp only [matModRing]
  rw [getD_map _ [] [] hiA, getD_map _ 0 0 hjA]

theorem elemMulRing_shape {A B : Mat} {p q : Nat} (ring : Int)
    (hA : matShape A p q) (hB : matShape B p q) :
    matShape (elemMulRing ring A B) p q := by
  constructor
  · simp [elemMulRing, hA.1, hB.1]
  · intro row hrow
    rw [List.mem_iff_getElem] at hrow
    obtain ⟨i, hilen, rfl⟩ := hrow
    simp only [elemMulRing, List.getElem_zipWith, List.length_zipWith]
    rw [hA.2 _ (List.getElem_mem _), hB.2 _ (List.getElem_mem _)]
    simp

theorem matEntry_elemMulRing {A B : Mat} {p q i j : Nat} (ring : Int)
    (hA : matShape A p q) (hB : matShape B p q) (hi : i < p) (hj : j < q) :
    matEntry (elemMulRing ring A B) i j =
      matEntry A i j * matEntry B i j % ring := by
  have hiA : i < A.length := by rw [hA.1]; omega
  have hiB : i < B.length := by rw [hB.1]; omega
  have hjA : j < (A.getD i []).length := by
    rw [matShape_getD_length hA hi]; omega
  have hjB : j < (B.getD i []).length := by
    rw [matShape_getD_length hB hi]; omega
  unfold matEntry
  simp only [elemMulRing]
  rw [getD_zipWith _ [] [] [] hiA hiB, getD_zipWith _ 0 0 0 hjA hjB]

theorem matMulRing_shape {A B : Mat} {p q r : Nat} (ring : Int)
    (hA : matShape A p q) (hB : matShape B q r) (hq : 1 ≤ q) :
    matShape (matMulRing ring A B) p r := by
  have hBne : B ≠ [] := by
    intro hB0
    rw [hB0] at hB
    have := hB.1
    simp at this
    omega
  constructor
  · simp [matMulRing, hA.1]
  · intro row hrow
    simp only [matMulRing, List.mem_map] at hrow
    obtain ⟨arow, ha, rfl⟩ := hrow
    rw [List.length_map, pyZipStar_length,
      minLen_of_forall (fun l hl => hB.2 l hl) hBne]

/-! ## Share reconstruction -/

theorem shares_length (prgE : Nat → Nat → Nat → Nat → Int) (ring : Int)
    (secret : Mat) (n rows cols seed : Nat) (hn : 1 ≤ n) :
    (get_shares_from_local_secret prgE ring secret n rows cols seed).length
      = n := by
  simp [get_shares_from_local_secret]
  omega

theorem shares_recon (prgE : Nat → Nat → Nat → Nat → Int) (ring : Int)
    {secret : Mat} (n : Nat) {rows cols : Nat} (seed : Nat)
    (hsec : matShape secret rows cols) (hn : 1 ≤ n) {i j : Nat}
    (hi : i < rows) (hj : j < cols) :
    ((get_shares_from_local_secret prgE ring secret n rows cols seed).map
      (fun M => matEntry M i j)).sum ≡ matEntry secret i j [ZMOD ring] := by
  unfold get_shares_from_local_secret
  have hshapes : ∀ M ∈ (List.range (n - 1)).map
      (fun k => seededMat prgE seed k rows cols), matShape M rows cols := by
    intro M hM
    simp only [List.mem_map] at hM
    obtain ⟨k, _, rfl⟩ := hM
    exact seededMat_shape prgE seed k rows cols
  rw [List.map_append, List.sum_append]
  simp only [List.map_cons, List.map_nil, List.sum_cons, List.sum_nil,
    add_zero]
  rw [matEntry_matModRing ring (matSubAll_shape _ _ hsec hshapes) hi hj,
    matEntry_matSubAll _ _ hsec hshapes hi hj]
  set S := (((List.range (n - 1)).map
    (fun k => seededMat prgE seed k rows cols)).map
      (fun M => matEntry M i j)).sum with hS
  have h1 : (matEntry secret i j - S) % ring ≡
      matEntry secret i j - S [ZMOD ring] :=
    Int.emod_emod_of_dvd _ dvd_rfl
  have h2 := h1.add_left S
  have h3 : S + (matEntry secret i j - S) = matEntry secret i j := by ring
  rw [h3] at h2
  exact h2

theorem beaverReshape_single_c_map (aS bS cS : List Mat) {n : Nat}
    (ha : aS.length = n) (hb : bS.length = n) (hc : cS.length = n)
    (hn : 1 ≤ n) (i j : Nat) :
    (beaverReshape [(aS, bS, cS)]).map
        (fun bund => matEntry ((bund.getD 0 []).getD 2 []) i j) =
      cS.map (fun M => matEntry M i j) := by
  have hne : ([(aS, bS, cS)] : List (List Mat × List Mat × List Mat)) ≠ [] :=
    by simp
  have hall : ∀ x ∈ [(aS, bS, cS)],
      x.1.length = n ∧ x.2.1.length = n ∧ x.2.2.length = n := by
    simp [ha, hb, hc]
  apply List.ext_getElem
  · rw [List.length_map, beaverReshape_length hne hall, List.length_map, hc]
  · intro i h1 h2
    have hi : i < n := by
      rw [List.length_map, beaverReshape_length hne hall] at h1
      exact h1
    rw [List.getElem_map, List.getElem_map]
    congr 1
    have hlen : i < (beaverReshape [(aS, bS, cS)]).length := by
      rw [beaverReshape_length hne hall]
      exact hi
    have hb1 : (beaverReshape [(aS, bS, cS)])[i] =
        [[aS.getD i default, bS.getD i default, cS.getD i default]] := by
      rw [← List.getD_eq_getElem _ [] hlen, beaverReshape_getD hne hall hi]
      simp
    rw [hb1]
    simp only [List.getD_cons_zero, List.getD_cons_succ]
    exact List.getD_eq_getElem _ _ (by rw [hc]; exact hi)

/-! ## Claim C1 -/

/-- Claim C1: for a registered operation the plaintext value C is computed
by applying the operation's plaintext combinator to the two random plaintext
operands A and B before any sharing — elementwise multiplication for
`beaver_mul` and matrix multiplication for `beaver_matmul`.  Structurally,
the generated bundles are the reshape of the three share lists of A, B and
`combinator(A, B)`; moreover summing all parties' c-shares reproduces
`combinator(A, B)` modulo the ring. -/
theorem triples_plaintext_combinator
    (prgE : Nat → Nat → Nat → Nat → Int) (ring : Int)
    (randbits : Nat → Nat) (ctr : Nat) :
    (∀ (A B : Mat) (n p q : Nat), 2 ≤ n → 1 ≤ p → 1 ≤ q →
      matShape A p q → matShape B p q →
      (get_triples_mul prgE ring randbits ctr A B n).1 =
        beaverReshape
          [(get_shares_from_local_secret prgE ring A n p q (randbits ctr),
            get_shares_from_local_secret prgE ring B n p q (randbits ctr),
            get_shares_from_local_secret prgE ring (elemMulRing ring A B)
              n p q (randbits ctr))] ∧
      ∀ i, i < p → ∀ j, j < q →
        (((get_triples_mul prgE ring randbits ctr A B n).1.map
            (fun bund => matEntry ((bund.getD 0 []).getD 2 []) i j)).sum) ≡
          matEntry A i j * matEntry B i j [ZMOD ring]) ∧
    (∀ (A B : Mat) (n p q r : Nat), 2 ≤ n → 1 ≤ p → 1 ≤ q →
      matShape A p q → matShape B q r →
      (get_triples_matmul prgE ring randbits ctr A B n).1 =
        beaverReshape
          [(get_shares_from_local_secret prgE ring A n p q (randbits ctr),
            get_shares_from_local_secret prgE ring B n q r (randbits ctr),
            get_shares_from_local_secret prgE ring (matMulRing ring A B)
              n p r (randbits ctr))] ∧
      ∀ i, i < p → ∀ j, j < r →
        (((get_triples_matmul prgE ring randbits ctr A B n).1.map
            (fun bund => matEntry ((bund.getD 0 []).getD 2 []) i j)).sum) ≡
          matEntry (matMulRing ring A B) i j [ZMOD ring]) := by
  constructor
  · intro A B n p q hn hp hq hA hB
    have hC : matShape (elemMulRing ring A B) p q := elemMulRing_shape ring hA hB
    have hstruct : (get_triples_mul prgE ring randbits ctr A B n).1 =
        beaverReshape
          [(get_shares_from_local_secret prgE ring A n A.length
              (A.getD 0 []).length (randbits ctr),
            get_shares_from_local_secret prgE ring B n B.length
              (B.getD 0 []).length (randbits ctr),
            get_shares_from_local_secret prgE ring (elemMulRing ring A B) n
              (elemMulRing ring A B).length
              ((elemMulRing ring A B).getD 0 []).length (randbits ctr))] := rfl
    rw [hA.1, hB.1, hC.1, matShape_getD_zero_length hA hp,
      matShape_getD_zero_length hB hp, matShape_getD_zero_length hC hp]
      at hstruct
    refine ⟨hstruct, ?_⟩
    intro i hi j hj
    rw [hstruct, beaverReshape_single_c_map _ _ _
      (shares_length prgE ring A n p q (randbits ctr) (by omega))
      (shares_length prgE ring B n p q (randbits ctr) (by omega))
      (shares_length prgE ring (elemMulRing ring A B) n p q (randbits ctr)
        (by omega))
      (by omega) i j]
    have hrec := shares_recon prgE ring n (randbits ctr) hC (by omega) hi hj
    rw [matEntry_elemMulRing ring hA hB hi hj] at hrec
    exact hrec.trans (Int.emod_emod_of_dvd _ dvd_rfl)
  · intro A B n p q r hn hp hq hA hB
    have hC : matShape (matMulRing ring A B) p r :=
      matMulRing_shape ring hA hB hq
    have hstruct : (get_triples_matmul prgE ring randbits ctr A B n).1 =
        beaverReshape
          [(get_shares_from_local_secret prgE ring A n A.length
              (A.getD 0 []).length (randbits ctr),
            get_shares_from_local_secret prgE ring B n B.length
              (B.getD 0 []).length (randbits ctr),
            get_shares_from_local_secret prgE ring (matMulRing ring A B) n
              (matMulRing ring A B).length
              ((matMulRing ring A B).getD 0 []).length (randbits ctr))] := rfl
    rw [hA.1, hB.1, hC.1, matShape_getD_zero_length hA hp,
      matShape_getD_zero_length hB hq, matShape_getD_zero_length hC hp]
      at hstruct
    refine ⟨hstruct, ?_⟩
    intro i hi j hj
    rw [hstruct, beaverReshape_single_c_map _ _ _
      (shares_length prgE ring A n p q (randbits ctr) (by omega))
      (shares_length prgE ring B n q r (randbits ctr) (by omega))
      (shares_length prgE ring (matMulRing ring A B) n p r (randbits ctr)
        (by omega))
      (by omega) i j]
    exact shares_recon prgE ring n (randbits ctr) hC (by omega) hi hj

/-- Witness for `triples_plaintext_combinator` at 1×1 operands. -/
theorem triples_plaintext_combinator_witness :
    (((get_triples_mul (fun _ _ _ _ => 3) 16 (fun _ => 7) 0
          [[2]] [[5]] 2).1.map
        (fun bund => matEntry ((bund.getD 0 []).getD 2 []) 0 0)).sum) ≡
      matEntry [[2]] 0 0 * matEntry [[5]] 0 0 [ZMOD 16] ∧
    (((get_triples_matmul (fun _ _ _ _ => 3) 16 (fun _ => 7) 0
          [[2]] [[5]] 2).1.map
        (fun bund => matEntry ((bund.getD 0 []).getD 2 []) 0 0)).sum) ≡
      matEntry (matMulRing 16 [[2]] [[5]]) 0 0 [ZMOD 16] :=
  ⟨((triples_plaintext_combinator (fun _ _ _ _ => 3) 16 (fun _ => 7) 0).1
      [[2]] [[5]] 2 1 1 (by decide) (by decide) (by decide) (by decide)
      (by decide)).2 0 (by decide) 0 (by decide),
   ((triples_plaintext_combinator (fun _ _ _ _ => 3) 16 (fun _ => 7) 0).2
      [[2]] [[5]] 2 1 1 1 (by decide) (by decide) (by decide) (by decide)
      (by decide)).2 0 (by decide) 0 (by decide)⟩

/-! ## Claim C7 -/

/-- Claim C7: a call to the triple generator with an unregistered operation
name fails with `UnknownOperationError` (and no other error), immediately
and without producing any shares — the entropy counter is returned
unchanged, so no seed was drawn and no share split. -/
theorem unknown_operation_rejected (prgE : Nat → Nat → Nat → Nat → Int)
    (ring : Int) (randbits : Nat → Nat) (ctr : Nat) (op_str : String)
    (a_rand b_rand : Mat) (nr_parties : Nat)
    (h : op_str ∉ registeredOps) :
    generate_primitives prgE ring randbits ctr op_str a_rand b_rand
      nr_parties = (.error .unknownOperation, ctr) := by
  simp only [registeredOps, List.mem_cons, List.not_mem_nil, or_false,
    not_or] at h
  simp [generate_primitives, h.1, h.2]

/-- Witness for `unknown_operation_rejected` at the name `"beaver_add"`. -/
theorem unknown_operation_rejected_witness :
    generate_primitives (fun _ _ _ _ => 0) 16 (fun _ => 0) 5 "beaver_add"
      [[1]] [[1]] 2 = (.error .unknownOperation, 5) :=
  unknown_operation_rejected (fun _ _ _ _ => 0) 16 (fun _ => 0) 5
    "beaver_add" [[1]] [[1]] 2 (by decide)
